import Mathlib

/-!
Shallow embedding of the word-embedding similarity engine of
`src/03A_NLP.ipynb` (Duke-MLSS-2020).

The notebook's core routines are:

* cell 9 (`normalized_embeddings`):
    `norms = np.linalg.norm(english_embeddings, axis=1)`
    `normalized_embeddings = english_embeddings / norms.reshape([-1, 1])`
  Every row is divided by its L2 norm, unconditionally (numpy elementwise
  division; IEEE `0.0 / 0.0` is NaN).

* cell 11 (`index`): `index = {word: i for i, word in enumerate(english_words)}`
  A dict comprehension; later insertions overwrite earlier ones, so a
  duplicated word is keyed by its last position.

* cell 13 (`similarity_score`):
    `np.dot(normalized_embeddings[index[w1], :], normalized_embeddings[index[w2], :])`
  A missing word raises `KeyError` (modelled as `none`).

* cell 16 (`closest_to_vector`, `most_similar`):
    `all_scores = np.dot(normalized_embeddings, v)`
    `best_words = map(lambda i: english_words[i], reversed(np.argsort(all_scores)))`
    `return [next(best_words) for _ in range(n)]`
  `np.argsort` is an ascending sort of indices by score (its order on equal
  keys is implementation-defined; we model it as the stable ascending sort,
  the most favourable reading for the spec's stability claim); `reversed`
  walks it backwards; `next` is applied `n` times and raises `StopIteration`
  once the V available indices are exhausted (modelled as `none`).

* cell 26 (`solve_analogy`):
    `b2 = normalized_embeddings[index[b1], :] - normalized_embeddings[index[a1], :]
         + normalized_embeddings[index[a2], :]`
    `return closest_to_vector(b2, 10)`

Embedding entries are modelled as rationals; the floating-point division of
the normalization step is modelled NaN-aware (`FloatVal`), since one claim is
about NaN production. The square root inside `np.linalg.norm` is kept as an
explicit function parameter `nsqrt` with its defining property
(`nsqrt s ^ 2 = s`) assumed where needed, since exact square roots do not
exist inside ℚ.
-/

namespace DukeNLP

open scoped List

/-- Dot product of two vectors, as `np.dot` on 1-D arrays of equal length. -/
def dot (u v : List ℚ) : ℚ := (List.zipWith (fun a b => a * b) u v).sum

/-- Sum of squares of a vector: the square of its L2 norm. -/
def sumSq (v : List ℚ) : ℚ := dot v v

/-- Result of one IEEE floating-point division, as far as the claims need:
a NaN, a signed infinity, or an ordinary (here: rational) number. -/
inductive FloatVal where
  | nan : FloatVal
  | inf : Bool → FloatVal
  | num : ℚ → FloatVal
deriving DecidableEq

/-- IEEE division `x / y` of finite operands: `0/0` is NaN, `x/0` for
`x ≠ 0` is a signed infinity, otherwise the exact quotient. -/
def fdiv (x y : ℚ) : FloatVal :=
  if y = 0 then (if x = 0 then FloatVal.nan else FloatVal.inf (decide (x < 0))) else FloatVal.num (x / y)

/-- One row of cell 9's `english_embeddings / norms.reshape([-1, 1])`:
every entry of the row is divided by the row's L2 norm
`nsqrt (sumSq row)`, with IEEE division (`fdiv`). `nsqrt` stands for the
floating square root used by `np.linalg.norm`. -/
def normalizeRow (nsqrt : ℚ → ℚ) (row : List ℚ) : List FloatVal :=
  row.map (fun x => fdiv x (nsqrt (sumSq row)))

/-- The same normalization restricted to the non-exceptional case, with
plain rational division; coincides with `normalizeRow` when the row's norm
is nonzero. -/
def normalizeRowQ (nsqrt : ℚ → ℚ) (row : List ℚ) : List ℚ :=
  row.map (fun x => x / nsqrt (sumSq row))

/-- The in-memory state after cell 9: the English vocabulary
(`english_words`) and the normalized embedding matrix
(`normalized_embeddings`), one row per word. -/
structure Store where
  words : List String
  matrix : List (List ℚ)

/-- Cell 11's `index = {word: i for i, word in enumerate(english_words)}`:
a dict built by inserting `(word, i)` pairs left to right, a later insertion
overwriting an earlier one with the same key. Lookup of an absent key is a
`KeyError`, modelled as `none`. -/
def buildIndex (ws : List String) : String → Option ℕ :=
  ws.enum.foldl (fun f p => fun x => if x = p.2 then some p.1 else f x) (fun _ => none)

/-- Cell 16's `all_scores = np.dot(normalized_embeddings, v)`: the dot
product of the query against every row. -/
def allScores (S : Store) (v : List ℚ) : List ℚ := S.matrix.map (fun row => dot row v)

/-- Comparison of two row indices by their score, the sort key of
`np.argsort(all_scores)`. -/
def scoreLE (scores : List ℚ) (i j : ℕ) : Prop := scores.getD i 0 ≤ scores.getD j 0

instance (scores : List ℚ) : DecidableRel (scoreLE scores) :=
  fun i j => inferInstanceAs (Decidable (scores.getD i 0 ≤ scores.getD j 0))

instance (scores : List ℚ) : IsTotal ℕ (scoreLE scores) := ⟨fun _ _ => le_total _ _⟩

instance (scores : List ℚ) : IsTrans ℕ (scoreLE scores) := ⟨fun _ _ _ h h2 => le_trans h h2⟩

/-- Model of `np.argsort(all_scores)`: the indices `0 .. V-1` sorted in
ascending order of score, stably (see the header note on `np.argsort`). -/
def argsort (scores : List ℚ) : List ℕ :=
  (List.range scores.length).insertionSort (scoreLE scores)

/-- Cell 16's `closest_to_vector(v, n)`: scores every row against `v`,
walks `reversed(np.argsort(all_scores))` and pulls `n` words with `next`.
Pulling more words than the matrix has rows raises `StopIteration`,
modelled as `none`. -/
def closest_to_vector (S : Store) (v : List ℚ) (n : ℕ) : Option (List String) :=
  let order := (argsort (allScores S v)).reverse
  if n ≤ order.length then some ((order.take n).map (fun i => S.words.getD i "")) else none

/-- Cell 13's `similarity_score(w1, w2)`: dot product of the two words'
normalized rows; `none` models the `KeyError` on a missing word. -/
def similarity_score (S : Store) (w1 w2 : String) : Option ℚ :=
  match buildIndex S.words w1, buildIndex S.words w2 with
  | some i, some j => some (dot (S.matrix.getD i []) (S.matrix.getD j []))
  | _, _ => none

/-- Cell 16's `most_similar(w, n) = closest_to_vector(normalized_embeddings[index[w], :], n)`. -/
def most_similar (S : Store) (w : String) (n : ℕ) : Option (List String) :=
  match buildIndex S.words w with
  | some i => closest_to_vector S (S.matrix.getD i []) n
  | none => none

/-- Elementwise vector difference, as numpy row subtraction. -/
def vsub (u v : List ℚ) : List ℚ := List.zipWith (fun a b => a - b) u v

/-- Elementwise vector sum, as numpy row addition. -/
def vadd (u v : List ℚ) : List ℚ := List.zipWith (fun a b => a + b) u v

/-- Cell 26's `solve_analogy(a1, b1, a2)`: looks up the three rows
(`index[b1]` first, matching the source's evaluation order), forms
`b2 = row(b1) - row(a1) + row(a2)` and returns `closest_to_vector(b2, 10)`;
a missing word's `KeyError` is `none`. -/
def solve_analogy (S : Store) (a1 b1 a2 : String) : Option (List String) :=
  match buildIndex S.words b1, buildIndex S.words a1, buildIndex S.words a2 with
  | some ib, some ia, some ic =>
      closest_to_vector S (vadd (vsub (S.matrix.getD ib []) (S.matrix.getD ia [])) (S.matrix.getD ic [])) 10
  | _, _, _ => none

/-- A two-word store whose rows have identical scores against the query
`[1]`; used to exercise tie-breaking and out-of-range `n`. -/
def twinStore : Store := ⟨["apple", "berry"], [[1], [1]]⟩

/-- The spec's own concrete scenario (section 8): three pre-normalized
two-dimensional rows for "cat", "dog", "car". -/
def triStore : Store := ⟨["cat", "dog", "car"], [[1, 0], [4/5, 3/5], [0, 1]]⟩

/-! Helper lemmas about `buildIndex` (the dict comprehension of cell 11). -/

theorem enumFrom_concat {α : Type _} (n : ℕ) (ws : List α) (w : α) :
    (ws ++ [w]).enumFrom n = ws.enumFrom n ++ [(n + ws.length, w)] := by
  induction ws generalizing n with
  | nil => simp
  | cons a t ih =>
      simp only [List.cons_append, List.enumFrom_cons, ih (n + 1), List.length_cons]
      have harith : n + 1 + t.length = n + (t.length + 1) := by omega
      rw [harith]

theorem buildIndex_concat (ws : List String) (w0 x : String) :
    buildIndex (ws ++ [w0]) x = if x = w0 then some ws.length else buildIndex ws x := by
  simp only [buildIndex, List.enum_eq_enumFrom, enumFrom_concat, Nat.zero_add,
    List.foldl_append, List.foldl_cons, List.foldl_nil]

theorem buildIndex_nil (x : String) : buildIndex [] x = none := rfl

theorem buildIndex_none_iff (ws : List String) (x : String) :
    buildIndex ws x = none ↔ x ∉ ws := by
  induction ws using List.reverseRecOn with
  | nil => simp [buildIndex_nil]
  | append_singleton t a ih =>
      rw [buildIndex_concat]
      by_cases hxa : x = a
      · simp [hxa]
      · simp [hxa, ih]

theorem buildIndex_getElem (ws : List String) (x : String) (i : ℕ)
    (h : buildIndex ws x = some i) : ws[i]? = some x := by
  induction ws using List.reverseRecOn generalizing i with
  | nil => simp [buildIndex_nil] at h
  | append_singleton t a ih =>
      rw [buildIndex_concat] at h
      by_cases hxa : x = a
      · rw [if_pos hxa] at h
        obtain rfl : t.length = i := by simpa using h
        rw [← hxa]
        exact List.getElem?_concat_length t x
      · rw [if_neg hxa] at h
        have ht := ih i h
        have hlt : i < t.length := by
          by_contra hge
          rw [List.getElem?_eq_none (by omega)] at ht
          exact Option.noConfusion ht
        rw [List.getElem?_append_left hlt]
        exact ht

theorem buildIndex_lt_length (ws : List String) (x : String) (i : ℕ)
    (h : buildIndex ws x = some i) : i < ws.length := by
  have hg := buildIndex_getElem ws x i h
  by_contra hge
  rw [List.getElem?_eq_none (by omega)] at hg
  exact Option.noConfusion hg

theorem buildIndex_last (ws : List String) (x : String) (i : ℕ)
    (h : buildIndex ws x = some i) :
    ∀ j, ws[j]? = some x → j ≤ i := by
  induction ws using List.reverseRecOn generalizing i with
  | nil => simp [buildIndex_nil] at h
  | append_singleton t a ih =>
      intro j hj
      rw [buildIndex_concat] at h
      have hjlt : j < t.length + 1 := by
        by_contra hge
        rw [List.getElem?_eq_none (by simp; omega)] at hj
        exact Option.noConfusion hj
      by_cases hxa : x = a
      · rw [if_pos hxa] at h
        obtain rfl : t.length = i := by simpa using h
        omega
      · rw [if_neg hxa] at h
        rcases Nat.lt_or_ge j t.length with hlt | hge
        · exact ih i h j (by rwa [List.getElem?_append_left hlt] at hj)
        · have hje : j = t.length := by omega
          subst hje
          rw [List.getElem?_concat_length] at hj
          exact absurd (Option.some.inj hj).symm hxa

theorem buildIndex_mem (ws : List String) (x : String) (hx : x ∈ ws) :
    ∃ i, buildIndex ws x = some i := by
  rcases ho : buildIndex ws x with _ | i
  · exact absurd ((buildIndex_none_iff ws x).mp ho) (by simpa using hx)
  · exact ⟨i, rfl⟩

/-! Helper lemmas about `dot`, `allScores` and `argsort`. -/

theorem dot_nil_left (v : List ℚ) : dot [] v = 0 := rfl

theorem dot_cons (a b : ℚ) (u v : List ℚ) :
    dot (a :: u) (b :: v) = a * b + dot u v := by
  simp [dot]

theorem length_allScores (S : Store) (v : List ℚ) :
    (allScores S v).length = S.matrix.length := by
  simp [allScores]

theorem argsort_perm (scores : List ℚ) :
    (argsort scores).Perm (List.range scores.length) :=
  List.perm_insertionSort _ _

theorem argsort_length (scores : List ℚ) :
    (argsort scores).length = scores.length := by
  simpa using (argsort_perm scores).length_eq

theorem argsort_sorted (scores : List ℚ) :
    (argsort scores).Pairwise (scoreLE scores) :=
  List.sorted_insertionSort _ _

theorem argsort_reverse_pairwise (scores : List ℚ) :
    ((argsort scores).reverse).Pairwise (fun i j => scores.getD j 0 ≤ scores.getD i 0) := by
  rw [List.pairwise_reverse]
  exact argsort_sorted scores

theorem pair_sublist_range {i j n : ℕ} (hij : i < j) (hj : j < n) :
    [i, j] <+ List.range n := by
  induction n with
  | zero => omega
  | succ m ih =>
      rcases Nat.lt_or_ge j m with h | h
      · exact (ih h).trans (List.range_sublist.mpr (Nat.le_succ m))
      · have hj' : j = m := by omega
        subst hj'
        rw [List.range_succ]
        exact List.Sublist.append
          (List.singleton_sublist.mpr (List.mem_range.mpr hij)) (List.Sublist.refl _)

/-- C1: for every query vector `v` and every `n ≤ V` (the number of rows),
`closest_to_vector` returns exactly `n` words, obtained by mapping the
vocabulary over a list `idx` of row indices whose scores are non-increasing,
and whose members score at least as high as every row left out: the `n`
highest-scoring rows in descending order of score. -/
theorem C1_top_n_length_and_order (S : Store) (v : List ℚ) (n : ℕ)
    (hV : S.words.length = S.matrix.length) (hn : n ≤ S.words.length) :
    ∃ idx rest : List ℕ,
      closest_to_vector S v n = some (idx.map (fun i => S.words.getD i "")) ∧
      idx.length = n ∧
      idx.Pairwise (fun i j => (allScores S v).getD j 0 ≤ (allScores S v).getD i 0) ∧
      (idx ++ rest).Perm (List.range S.words.length) ∧
      (∀ i ∈ idx, ∀ j ∈ rest, (allScores S v).getD j 0 ≤ (allScores S v).getD i 0) := by
  rw [hV]
  rw [hV] at hn
  have hlen : (allScores S v).length = S.matrix.length := length_allScores S v
  have holen : ((argsort (allScores S v)).reverse).length = S.matrix.length := by
    simp [argsort_length, hlen]
  refine ⟨((argsort (allScores S v)).reverse).take n,
          ((argsort (allScores S v)).reverse).drop n, ?_, ?_, ?_, ?_, ?_⟩
  · unfold closest_to_vector
    rw [if_pos (by omega)]
  · rw [List.length_take, holen]
    omega
  · exact (argsort_reverse_pairwise (allScores S v)).sublist (List.take_sublist n _)
  · rw [List.take_append_drop]
    calc (argsort (allScores S v)).reverse
        ~ argsort (allScores S v) := List.reverse_perm _
      _ ~ List.range (allScores S v).length := argsort_perm _
      _ = List.range S.matrix.length := by rw [hlen]
  · have hp := argsort_reverse_pairwise (allScores S v)
    rw [← List.take_append_drop n ((argsort (allScores S v)).reverse)] at hp
    exact (List.pairwise_append.mp hp).2.2

/-- C1 witness: the theorem applied to the spec's concrete three-word store
with query `[1, 0]` and `n = 2`. -/
theorem C1_witness :
    2 ≤ triStore.words.length ∧
    ∃ idx rest : List ℕ,
      closest_to_vector triStore [1, 0] 2 = some (idx.map (fun i => triStore.words.getD i "")) ∧
      idx.length = 2 ∧
      idx.Pairwise (fun i j =>
        (allScores triStore [1, 0]).getD j 0 ≤ (allScores triStore [1, 0]).getD i 0) ∧
      (idx ++ rest).Perm (List.range triStore.words.length) ∧
      (∀ i ∈ idx, ∀ j ∈ rest,
        (allScores triStore [1, 0]).getD j 0 ≤ (allScores triStore [1, 0]).getD i 0) :=
  ⟨by norm_num [triStore],
    C1_top_n_length_and_order triStore [1, 0] 2 (by norm_num [triStore]) (by norm_num [triStore])⟩

/-- C3 counterexample: with two rows and `n = 3`, `closest_to_vector` does
not clamp and return all `V = 2` words; it exhausts the iterator and raises
`StopIteration`, modelled as `none`. -/
theorem C3_counterexample : closest_to_vector twinStore [1] 3 = none := by
  norm_num [closest_to_vector, argsort, allScores, dot, twinStore, scoreLE,
    List.insertionSort, List.orderedInsert, List.range_succ]

/-- C3 amended: for every `n` larger than the number of rows,
`closest_to_vector` raises (`StopIteration`, modelled as `none`) instead of
clamping `n` to the vocabulary size. -/
theorem C3_overflow_raises (S : Store) (v : List ℚ) (n : ℕ)
    (hV : S.words.length = S.matrix.length) (hn : S.words.length < n) :
    closest_to_vector S v n = none := by
  rw [hV] at hn
  unfold closest_to_vector
  rw [if_neg]
  rw [List.length_reverse, argsort_length, length_allScores]
  omega

/-- C3 witness: the amended theorem applied to the two-word store with
`n = 3`. -/
theorem C3_witness :
    twinStore.words.length < 3 ∧ closest_to_vector twinStore [1] 3 = none :=
  ⟨by norm_num [twinStore],
    C3_overflow_raises twinStore [1] 3 (by norm_num [twinStore]) (by norm_num [twinStore])⟩

/-- C4 counterexample: in the two-word store both rows score `1` against the
query `[1]`; a ranking that is stable by original vocabulary order would
return `["apple", "berry"]`, but the code returns `["berry", "apple"]`:
reversing an ascending argsort puts the larger row index first on ties. -/
theorem C4_counterexample :
    closest_to_vector twinStore [1] 2 = some ["berry", "apple"] ∧
    closest_to_vector twinStore [1] 2 ≠ some ["apple", "berry"] := by
  constructor
  · norm_num [closest_to_vector, argsort, allScores, dot, twinStore, scoreLE,
      List.insertionSort, List.orderedInsert, List.range_succ]
  · norm_num [closest_to_vector, argsort, allScores, dot, twinStore, scoreLE,
      List.insertionSort, List.orderedInsert, List.range_succ]
    decide

/-- C4 amended: on equal scores `closest_to_vector` orders the entry with
the larger row index first, because the ranking is the reverse of a stable
ascending argsort; the tie-break is descending vocabulary order, not the
claimed ascending (stable) one. -/
theorem C4_ties_larger_index_first (S : Store) (v : List ℚ) (i j : ℕ)
    (hij : i < j) (hj : j < S.matrix.length)
    (heq : (allScores S v).getD i 0 = (allScores S v).getD j 0) :
    [j, i] <+ (argsort (allScores S v)).reverse ∧
    ∀ l, closest_to_vector S v S.matrix.length = some l →
      [S.words.getD j "", S.words.getD i ""] <+ l := by
  have hlen : (allScores S v).length = S.matrix.length := length_allScores S v
  have hsub : [i, j] <+ List.range (allScores S v).length := by
    rw [hlen]
    exact pair_sublist_range hij hj
  have hpair : [i, j].Pairwise (scoreLE (allScores S v)) := by
    rw [List.pairwise_pair]
    exact le_of_eq heq
  have h1 : [i, j] <+ argsort (allScores S v) :=
    List.sublist_insertionSort hpair hsub
  have h2 : [j, i] <+ (argsort (allScores S v)).reverse := by
    have := h1.reverse
    simpa using this
  refine ⟨h2, fun l hl => ?_⟩
  have holen : ((argsort (allScores S v)).reverse).length = S.matrix.length := by
    simp [argsort_length, hlen]
  unfold closest_to_vector at hl
  rw [if_pos (by omega)] at hl
  have hl' : l = (((argsort (allScores S v)).reverse).take S.matrix.length).map
      (fun i => S.words.getD i "") := by
    exact (Option.some.inj hl).symm
  rw [hl', ← holen, List.take_length]
  exact h2.map (fun i => S.words.getD i "")

/-- C4 witness: the amended theorem applied to the two-word store, whose two
rows tie against the query `[1]`. -/
theorem C4_witness :
    1 < twinStore.matrix.length ∧
    (allScores twinStore [1]).getD 0 0 = (allScores twinStore [1]).getD 1 0 ∧
    ([1, 0] <+ (argsort (allScores twinStore [1])).reverse ∧
      ∀ l, closest_to_vector twinStore [1] twinStore.matrix.length = some l →
        [twinStore.words.getD 1 "", twinStore.words.getD 0 ""] <+ l) :=
  ⟨by norm_num [twinStore], by norm_num [allScores, dot, twinStore],
    C4_ties_larger_index_first twinStore [1] 0 1 (by norm_num) (by norm_num [twinStore])
      (by norm_num [allScores, dot, twinStore])⟩

/-- C5: when all three words are present, `solve_analogy(a1, b1, a2)` is
exactly `closest_to_vector` applied to `row(b1) - row(a1) + row(a2)` with
`n = 10`, and it filters nothing: any word appearing in that ranking appears
in the returned list. -/
theorem C5_solve_analogy_delegates (S : Store) (a1 b1 a2 : String) (ia ib ic : ℕ)
    (ha : buildIndex S.words a1 = some ia)
    (hb : buildIndex S.words b1 = some ib)
    (hc : buildIndex S.words a2 = some ic) :
    solve_analogy S a1 b1 a2 =
      closest_to_vector S
        (vadd (vsub (S.matrix.getD ib []) (S.matrix.getD ia [])) (S.matrix.getD ic [])) 10 ∧
    ∀ l w, closest_to_vector S
        (vadd (vsub (S.matrix.getD ib []) (S.matrix.getD ia [])) (S.matrix.getD ic [])) 10 = some l →
      w ∈ l → ∃ lr, solve_analogy S a1 b1 a2 = some lr ∧ w ∈ lr := by
  have h1 : solve_analogy S a1 b1 a2 =
      closest_to_vector S
        (vadd (vsub (S.matrix.getD ib []) (S.matrix.getD ia [])) (S.matrix.getD ic [])) 10 := by
    unfold solve_analogy
    rw [ha, hb, hc]
  exact ⟨h1, fun l w hl hw => ⟨l, h1.trans hl, hw⟩⟩

/-- C5 witness: the theorem applied to the three-word store with the words
"cat", "dog", "car" at rows 0, 1, 2. -/
theorem C5_witness :
    solve_analogy triStore "cat" "dog" "car" =
      closest_to_vector triStore
        (vadd (vsub (triStore.matrix.getD 1 []) (triStore.matrix.getD 0 []))
          (triStore.matrix.getD 2 [])) 10 ∧
    ∀ l w, closest_to_vector triStore
        (vadd (vsub (triStore.matrix.getD 1 []) (triStore.matrix.getD 0 []))
          (triStore.matrix.getD 2 [])) 10 = some l →
      w ∈ l → ∃ lr, solve_analogy triStore "cat" "dog" "car" = some lr ∧ w ∈ lr :=
  C5_solve_analogy_delegates triStore "cat" "dog" "car" 0 1 2 (by rfl) (by rfl) (by rfl)

/-! Helper lemmas for C6: the ranking only depends on the comparison
relation, and positive scaling of the query scales every score, leaving the
comparisons unchanged. -/

theorem orderedInsert_congr {α : Type _} (r1 r2 : α → α → Prop)
    [DecidableRel r1] [DecidableRel r2]
    (h : ∀ a b, r1 a b ↔ r2 a b) (a : α) :
    ∀ l : List α, l.orderedInsert r1 a = l.orderedInsert r2 a
  | [] => rfl
  | b :: l => by
      by_cases hab : r1 a b
      · rw [List.orderedInsert, if_pos hab, List.orderedInsert, if_pos ((h a b).mp hab)]
      · rw [List.orderedInsert, if_neg hab, List.orderedInsert,
          if_neg (fun hc => hab ((h a b).mpr hc)), orderedInsert_congr r1 r2 h a l]

theorem insertionSort_congr {α : Type _} (r1 r2 : α → α → Prop)
    [DecidableRel r1] [DecidableRel r2]
    (h : ∀ a b, r1 a b ↔ r2 a b) :
    ∀ l : List α, l.insertionSort r1 = l.insertionSort r2
  | [] => rfl
  | b :: l => by
      rw [List.insertionSort, List.insertionSort, insertionSort_congr r1 r2 h l,
        orderedInsert_congr r1 r2 h b]

theorem dot_map_smul (s : ℚ) : ∀ u v : List ℚ,
    dot u (v.map (fun x => s * x)) = s * dot u v
  | [], _ => by simp [dot]
  | _ :: _, [] => by simp [dot]
  | a :: u, b :: v => by
      rw [List.map_cons, dot_cons, dot_cons, dot_map_smul s u v]
      ring

theorem allScores_map_smul (S : Store) (v : List ℚ) (s : ℚ) :
    allScores S (v.map (fun x => s * x)) = (allScores S v).map (fun x => s * x) := by
  simp only [allScores, List.map_map]
  exact List.map_congr_left (fun row _ => dot_map_smul s row v)

theorem getD_map_smul (l : List ℚ) (s : ℚ) (i : ℕ) :
    (l.map (fun x => s * x)).getD i 0 = s * l.getD i 0 := by
  rcases h : l[i]? with _ | x
  · rw [List.getD_eq_getElem?_getD, List.getElem?_map, h,
      List.getD_eq_getElem?_getD, h]
    simp
  · rw [List.getD_eq_getElem?_getD, List.getElem?_map, h,
      List.getD_eq_getElem?_getD, h]
    simp

theorem argsort_map_smul (scores : List ℚ) (s : ℚ) (hs : 0 < s) :
    argsort (scores.map (fun x => s * x)) = argsort scores := by
  unfold argsort
  rw [List.length_map]
  refine insertionSort_congr _ _ (fun i j => ?_) _
  unfold scoreLE
  rw [getD_map_smul, getD_map_smul]
  exact mul_le_mul_left hs

/-- C6: scaling the query by any positive rational leaves the entire output
of `closest_to_vector` unchanged, for every `n`: dot-product ranking is
invariant under uniform positive scaling, so renormalizing the analogy
vector would not change the returned order. -/
theorem C6_positive_scaling_invariant (S : Store) (v : List ℚ) (s : ℚ) (n : ℕ)
    (hs : 0 < s) :
    closest_to_vector S (v.map (fun x => s * x)) n = closest_to_vector S v n := by
  unfold closest_to_vector
  rw [allScores_map_smul, argsort_map_smul _ _ hs]

/-- C6 witness: the theorem applied to the three-word store with the query
`[1, 0]` doubled. -/
theorem C6_witness :
    (0 : ℚ) < 2 ∧
    closest_to_vector triStore ([1, 0].map (fun x => 2 * x)) 2 =
      closest_to_vector triStore [1, 0] 2 :=
  ⟨by norm_num, C6_positive_scaling_invariant triStore [1, 0] 2 2 (by norm_num)⟩

/-- C7: if `w` is in the index and its row's self-score is strictly larger
than every other row's score against it (unique maximal self-similarity),
then `most_similar w 1` — that is, `top_n(embedding(w), 1)` — returns
exactly `[w]`. -/
theorem C7_most_similar_self (S : Store) (w : String) (iw : ℕ)
    (hw : buildIndex S.words w = some iw)
    (hlen : S.words.length = S.matrix.length)
    (hself : ∀ j, j < S.matrix.length → j ≠ iw →
      (allScores S (S.matrix.getD iw [])).getD j 0 <
        (allScores S (S.matrix.getD iw [])).getD iw 0) :
    most_similar S w 1 = some [w] := by
  have hiw : iw < S.matrix.length := hlen ▸ buildIndex_lt_length _ _ _ hw
  have hslen : (allScores S (S.matrix.getD iw [])).length = S.matrix.length :=
    length_allScores S _
  have holen : ((argsort (allScores S (S.matrix.getD iw []))).reverse).length =
      S.matrix.length := by
    rw [List.length_reverse, argsort_length, hslen]
  have hperm : ((argsort (allScores S (S.matrix.getD iw []))).reverse).Perm
      (List.range S.matrix.length) := by
    calc (argsort (allScores S (S.matrix.getD iw []))).reverse
        ~ argsort (allScores S (S.matrix.getD iw [])) := List.reverse_perm _
      _ ~ List.range (allScores S (S.matrix.getD iw [])).length := argsort_perm _
      _ = List.range S.matrix.length := by rw [hslen]
  obtain ⟨h, t, hord⟩ : ∃ h t,
      (argsort (allScores S (S.matrix.getD iw []))).reverse = h :: t := by
    cases hcase : (argsort (allScores S (S.matrix.getD iw []))).reverse with
    | nil => rw [hcase] at holen; simp at holen; omega
    | cons h t => exact ⟨h, t, rfl⟩
  have hmem_iw : iw ∈ h :: t := by
    rw [← hord]
    exact hperm.mem_iff.mpr (List.mem_range.mpr hiw)
  have hh_lt : h < S.matrix.length := by
    have : h ∈ List.range S.matrix.length :=
      hperm.mem_iff.mp (by rw [hord]; exact List.mem_cons_self h t)
    exact List.mem_range.mp this
  have hpair := argsort_reverse_pairwise (allScores S (S.matrix.getD iw []))
  rw [hord] at hpair
  have hh : h = iw := by
    by_contra hne
    have hmem_t : iw ∈ t := by
      rcases List.mem_cons.mp hmem_iw with heq | hmem
      · exact absurd heq.symm hne
      · exact hmem
    have hle : (allScores S (S.matrix.getD iw [])).getD iw 0 ≤
        (allScores S (S.matrix.getD iw [])).getD h 0 :=
      (List.pairwise_cons.mp hpair).1 iw hmem_t
    have hlt := hself h hh_lt hne
    exact absurd hle (not_le.mpr hlt)
  have hms : most_similar S w 1 = closest_to_vector S (S.matrix.getD iw []) 1 := by
    unfold most_similar
    rw [hw]
  rw [hms]
  unfold closest_to_vector
  rw [if_pos (by omega), hord]
  have htake : (h :: t).take 1 = [h] := rfl
  rw [htake, hh]
  have hget : S.words[iw]? = some w := buildIndex_getElem _ _ _ hw
  simp [List.getD_eq_getElem?_getD, hget]

/-- C7 witness: in the three-word store, "cat" at row 0 has unique maximal
self-similarity, and `most_similar "cat" 1 = ["cat"]`. -/
theorem C7_witness :
    triStore.words.length = triStore.matrix.length ∧
    most_similar triStore "cat" 1 = some ["cat"] :=
  ⟨by norm_num [triStore],
    C7_most_similar_self triStore "cat" 0 (by rfl) (by norm_num [triStore])
      (by
        intro j hj hne
        norm_num [triStore] at hj
        interval_cases j
        · exact absurd rfl hne
        · norm_num [allScores, dot, triStore]
        · norm_num [allScores, dot, triStore])⟩

/-! Helper lemmas for C8 and C2: sums of squares and division. -/

theorem sumSq_nonneg : ∀ v : List ℚ, 0 ≤ sumSq v
  | [] => le_refl 0
  | a :: v => by
      have hv := sumSq_nonneg v
      rw [sumSq, dot_cons]
      rw [sumSq] at hv
      nlinarith [mul_self_nonneg a]

theorem eq_zero_of_sumSq_eq_zero : ∀ v : List ℚ, sumSq v = 0 → ∀ x ∈ v, x = 0
  | [], _, x, hx => absurd hx (List.not_mem_nil x)
  | a :: v, h, x, hx => by
      have hv := sumSq_nonneg v
      rw [sumSq, dot_cons] at h
      rw [sumSq] at hv
      have ha : a * a = 0 := by nlinarith [mul_self_nonneg a]
      rcases List.mem_cons.mp hx with rfl | hxv
      · exact mul_self_eq_zero.mp ha
      · exact eq_zero_of_sumSq_eq_zero v (by rw [sumSq]; nlinarith [mul_self_nonneg a]) x hxv

theorem dot_map_div (c : ℚ) : ∀ r : List ℚ,
    dot (r.map (fun x => x / c)) (r.map (fun x => x / c)) = dot r r / c ^ 2
  | [] => by simp [dot]
  | a :: r => by
      rw [List.map_cons, dot_cons, dot_cons, dot_map_div c r]
      rcases eq_or_ne c 0 with rfl | hc
      · simp
      · field_simp
        ring

/-- C8: for a word `w` of the index whose raw row has nonzero squared norm,
the similarity score of `w` with itself over the normalized matrix of cell 9
is exactly 1: each normalized row has squared norm 1. (`nsqrt` is the square
root used by `np.linalg.norm`; its defining property is assumed only at the
one value where it is used.) -/
theorem C8_self_score_one (nsqrt : ℚ → ℚ) (words : List String)
    (raw : List (List ℚ)) (w : String) (iw : ℕ)
    (hw : buildIndex words w = some iw)
    (hlen : words.length = raw.length)
    (h0 : sumSq (raw.getD iw []) ≠ 0)
    (hs : nsqrt (sumSq (raw.getD iw [])) ^ 2 = sumSq (raw.getD iw [])) :
    similarity_score ⟨words, raw.map (normalizeRowQ nsqrt)⟩ w w = some 1 := by
  have hiw : iw < raw.length := hlen ▸ buildIndex_lt_length _ _ _ hw
  have hmat : (raw.map (normalizeRowQ nsqrt)).getD iw [] =
      normalizeRowQ nsqrt (raw.getD iw []) := by
    have hsome : raw[iw]? = some raw[iw] := List.getElem?_eq_getElem hiw
    rw [List.getD_eq_getElem?_getD, List.getElem?_map, hsome,
      List.getD_eq_getElem?_getD, hsome]
    rfl
  have hsim : similarity_score ⟨words, raw.map (normalizeRowQ nsqrt)⟩ w w =
      some (dot ((raw.map (normalizeRowQ nsqrt)).getD iw [])
        ((raw.map (normalizeRowQ nsqrt)).getD iw [])) := by
    unfold similarity_score
    rw [hw]
  rw [hsim, hmat]
  unfold normalizeRowQ
  rw [dot_map_div]
  rw [hs]
  have hds : dot (raw.getD iw []) (raw.getD iw []) = sumSq (raw.getD iw []) := rfl
  rw [hds, div_self h0]

/-- C8 witness: the theorem applied to a one-word store whose raw row
`[3, 4]` has rational norm 5, with the square root given pointwise. -/
theorem C8_witness :
    sumSq (([[(3 : ℚ), 4]]).getD 0 []) ≠ 0 ∧
    similarity_score ⟨["pyth"], [[(3 : ℚ), 4]].map (normalizeRowQ (fun _ => 5))⟩
      "pyth" "pyth" = some 1 :=
  ⟨by norm_num [sumSq, dot],
    C8_self_score_one (fun _ => 5) ["pyth"] [[(3 : ℚ), 4]] "pyth" 0 (by rfl) (by rfl)
      (by norm_num [sumSq, dot]) (by norm_num [sumSq, dot])⟩

/-- C9: a word absent from the vocabulary makes every lookup-based
operation surface the `KeyError` (modelled `none`): `similarity_score` in
either argument and `solve_analogy` in any of its three arguments; no
default vector is substituted. -/
theorem C9_missing_word_propagates (S : Store) (w u a b : String)
    (h : w ∉ S.words) :
    similarity_score S w u = none ∧ similarity_score S u w = none ∧
    solve_analogy S w a b = none ∧ solve_analogy S a w b = none ∧
    solve_analogy S a b w = none := by
  have hw : buildIndex S.words w = none := (buildIndex_none_iff _ _).mpr h
  rcases hu : buildIndex S.words u with _ | i <;>
    rcases ha : buildIndex S.words a with _ | j <;>
      rcases hb : buildIndex S.words b with _ | k <;>
        simp [similarity_score, solve_analogy, hw, hu, ha, hb]

/-- C9 witness: the theorem applied to the three-word store and a word not
in its vocabulary. -/
theorem C9_witness :
    "zzz" ∉ triStore.words ∧
    (similarity_score triStore "zzz" "cat" = none ∧
      similarity_score triStore "cat" "zzz" = none ∧
      solve_analogy triStore "zzz" "cat" "dog" = none ∧
      solve_analogy triStore "cat" "zzz" "dog" = none ∧
      solve_analogy triStore "cat" "dog" "zzz" = none) :=
  ⟨by decide, C9_missing_word_propagates triStore "zzz" "cat" "cat" "dog" (by decide)⟩

/-- C10: for every vocabulary sequence and every word present in it, the
dict comprehension `index` maps the word to a row `i` holding that word;
`i` is the greatest position at which the word occurs (last occurrence
wins), and looking the row up returns the word back. -/
theorem C10_index_last_occurrence (ws : List String) (w : String) (hw : w ∈ ws) :
    ∃ i, buildIndex ws w = some i ∧ ws[i]? = some w ∧
      ∀ j, ws[j]? = some w → j ≤ i := by
  obtain ⟨i, hi⟩ := buildIndex_mem ws w hw
  exact ⟨i, hi, buildIndex_getElem _ _ _ hi, buildIndex_last _ _ _ hi⟩

/-- C10 witness: applied to a vocabulary with a duplicate, the index keys
the duplicated word by its last position. -/
theorem C10_witness :
    "a" ∈ ["a", "b", "a"] ∧
    ∃ i, buildIndex ["a", "b", "a"] "a" = some i ∧ ["a", "b", "a"][i]? = some "a" ∧
      ∀ j, ["a", "b", "a"][j]? = some "a" → j ≤ i :=
  ⟨by decide, C10_index_last_occurrence ["a", "b", "a"] "a" (by decide)⟩

/-- C2 counterexample: normalizing the zero row `[0, 0, 0]` divides each
entry by the zero norm, producing `[NaN, NaN, NaN]`, not `[0, 0, 0]` (the
identity function agrees with the floating square root at 0). -/
theorem C2_counterexample :
    normalizeRow (fun x => x) [0, 0, 0] = [FloatVal.nan, FloatVal.nan, FloatVal.nan] ∧
    normalizeRow (fun x => x) [0, 0, 0] ≠
      [FloatVal.num 0, FloatVal.num 0, FloatVal.num 0] := by
  constructor
  · norm_num [normalizeRow, sumSq, dot, fdiv]
  · norm_num [normalizeRow, sumSq, dot, fdiv]
    decide

/-- C2 amended: the normalization step divides every row by its L2 norm
with no zero-norm guard; a row of norm zero (all entries zero) is mapped to
a row of NaN entries (each entry is `0/0`), rather than to the zero row. -/
theorem C2_zero_row_gives_nan (nsqrt : ℚ → ℚ) (row : List ℚ)
    (hz : nsqrt 0 = 0) (h0 : sumSq row = 0) :
    normalizeRow nsqrt row = row.map (fun _ => FloatVal.nan) := by
  unfold normalizeRow
  apply List.map_congr_left
  intro x hx
  have hx0 : x = 0 := eq_zero_of_sumSq_eq_zero row h0 x hx
  rw [h0, hz, hx0]
  unfold fdiv
  simp

/-- C2 witness: the amended theorem applied to the zero row `[0, 0, 0]`. -/
theorem C2_witness :
    sumSq [0, 0, 0] = 0 ∧
    normalizeRow (fun x => x) [0, 0, 0] = [(0 : ℚ), 0, 0].map (fun _ => FloatVal.nan) :=
  ⟨by norm_num [sumSq, dot],
    C2_zero_row_gives_nan (fun x => x) [0, 0, 0] (by rfl) (by norm_num [sumSq, dot])⟩

end DukeNLP
